import Mathlib

/-!
Shallow embedding of `src/train.py` (CannotMax training script).

Floating-point values are modelled by rationals (`ℚ`); where NaN/Inf
propagation matters (the training-loop input screening) floats are modelled
by the inductive `FVal` with explicit `nan` / `inf` / `ninf` constructors.
Learned submodules whose internals live in the PyTorch library rather than in
this repository (the value FFN, the multi-head attention layers, the per-layer
FFNs and the scoring head) are fields of `ModelParams` holding arbitrary
functions: the claims about the forward pass quantify over every fixed
parameter setting, so proving them for arbitrary submodule functions covers
the real weight-induced functions.  Everything the repository's own code
computes (label mapping, sign/abs/clip parsing, top-k selection, embedding
lookup, value conditioning, masking, residual wiring, scoring, gradient
clipping, checkpoint decisions) is translated directly from the source.
-/

namespace CannotMax

/-- Embedding/feature vector: a row of rationals (one float tensor row). -/
abbrev Vec := List ℚ

/-! ### Label parsing (train.py lines 55-58) -/

/-- `data.iloc[:, -1].map({"L": 0, "R": 1})` — pandas `map` sends any label
outside the dictionary to NaN, modelled as `none`. -/
def mapLabel (s : String) : Option ℚ :=
  if s = "L" then some 0 else if s = "R" then some 1 else none

/-- `np.where((labels != 0) & (labels != 1), 0, labels)` (line 58).  A NaN
(`none`) compares unequal to both 0 and 1, so it is replaced by 0. -/
def whereFix (l : Option ℚ) : ℚ :=
  match l with
  | none => 0
  | some q => if q ≠ 0 ∧ q ≠ 1 then 0 else q

/-- Label value stored by `ArknightsDataset.__init__` for one raw label. -/
def parseLabel (s : String) : ℚ :=
  whereFix (mapLabel s)

/-! ### Feature parsing (train.py lines 60-70) -/

/-- `np.sign`. -/
def ratSign (x : ℚ) : ℚ :=
  if 0 < x then 1 else if x < 0 then -1 else 0

/-- `np.clip(x, lo, hi) = np.minimum(np.maximum(x, lo), hi)`; note that for
`hi < lo` every output equals `hi`, exactly as in NumPy. -/
def npClip (lo hi x : ℚ) : ℚ :=
  min (max x lo) hi

/-- The count array for one half of a feature row: absolute values, then the
optional clip to `[0, max_value]` (lines 63-64 and 68-70). -/
def toCounts (raw : List ℚ) (mv : Option ℚ) : List ℚ :=
  match mv with
  | none => raw.map (fun x => |x|)
  | some m => (raw.map (fun x => |x|)).map (npClip 0 m)

/-- The per-sample result of `ArknightsDataset.__init__`'s feature split. -/
structure ParsedRow where
  left_signs : List ℚ
  left_counts : List ℚ
  right_signs : List ℚ
  right_counts : List ℚ

/-- One row of `ArknightsDataset.__init__`: split at the midpoint, signs from
the raw values, counts from `|value|` with the optional clip (lines 60-70). -/
def parseRow (features : List ℚ) (mv : Option ℚ) : ParsedRow :=
  ⟨(features.take (features.length / 2)).map ratSign,
   toCounts (features.take (features.length / 2)) mv,
   (features.drop (features.length / 2)).map ratSign,
   toCounts (features.drop (features.length / 2)) mv⟩

/-! ### Gradient clipping (train.py lines 300-310) -/

/-- Sum of squares of a gradient vector; the global gradient norm of the code
is `Real.sqrt` of this, so "norm ≤ 1" is stated as `sumSq ≤ 1`. -/
def sumSq (g : List ℚ) : ℚ :=
  (g.map (fun x => x * x)).sum

/-- The `1e-6` guard used by `torch.nn.utils.clip_grad_norm_`. -/
def clipEps : ℚ := 1 / 1000000

/-- `torch.nn.utils.clip_grad_norm_(params, max_norm)` given that the total
norm of `g` is `n`: multiply every gradient by `max_norm / (n + 1e-6)` when
that coefficient is below 1, otherwise leave the gradients unchanged. -/
def clipGradNorm (maxNorm n : ℚ) (g : List ℚ) : List ℚ :=
  if maxNorm / (n + clipEps) < 1 then g.map (fun x => x * (maxNorm / (n + clipEps))) else g

/-- The mixed-precision branch (lines 300-305): `scaler.scale(loss).backward()`
stores the scaled gradients `S * g`; `clip_grad_norm_` is applied to those
scaled gradients (`nS` is their total norm — there is no `scaler.unscale_`
call before the clip); `scaler.step(optimizer)` then unscales by `1 / S`
before the optimizer consumes the gradients. -/
def scalerStepGrads (S nS : ℚ) (g : List ℚ) : List ℚ :=
  (clipGradNorm 1 nS (g.map (fun x => x * S))).map (fun x => x * (1 / S))

/-! ### NaN/Inf screening in `train_one_epoch` (train.py lines 258-319) -/

/-- A float value: finite rational, NaN, or a signed infinity. -/
inductive FVal where
  | fin : ℚ → FVal
  | nan : FVal
  | inf : FVal
  | ninf : FVal
deriving DecidableEq

/-- `torch.isnan` on one element. -/
def FVal.isNaN : FVal → Bool
  | .nan => true
  | _ => false

/-- `torch.isinf` on one element (true for both infinities). -/
def FVal.isInf : FVal → Bool
  | .inf => true
  | .ninf => true
  | _ => false

/-- `labels < 0` elementwise (false on NaN, as for floats). -/
def fvalLtZero : FVal → Bool
  | .fin q => decide (q < 0)
  | .ninf => true
  | _ => false

/-- `labels > 1` elementwise (false on NaN). -/
def fvalGtOne : FVal → Bool
  | .fin q => decide (1 < q)
  | .inf => true
  | _ => false

/-- `torch.clamp(x, 0, 1)` on one element. -/
def clampLabel : FVal → FVal
  | .fin q => .fin (min (max q 0) 1)
  | .inf => .fin 1
  | .ninf => .fin 0
  | .nan => .nan

/-- One training batch as seen by the loop body. -/
structure TrainBatch where
  ls : List FVal
  lc : List FVal
  rs : List FVal
  rc : List FVal
  labels : List FVal

/-- The body of the `for` loop of `train_one_epoch` for one batch, lines
258-319, for an abstract parameter state `α`.  `lossOf` is the forward pass
plus criterion; `applyStep` is backward + clip + optimizer step (the claim
quantifies over both).  Returns the new parameters and whether the batch was
skipped.  `optimizer.zero_grad()` mutates gradients only, not parameters. -/
def trainBatchStep {α : Type} (lossOf : α → TrainBatch → FVal)
    (applyStep : α → TrainBatch → α) (params : α) (b : TrainBatch) : α × Bool :=
  if b.ls.any FVal.isNaN || b.lc.any FVal.isNaN || b.rs.any FVal.isNaN || b.rc.any FVal.isNaN then
    (params, true)
  else if b.ls.any FVal.isInf || b.lc.any FVal.isInf || b.rs.any FVal.isInf || b.rc.any FVal.isInf then
    (params, true)
  else
    (fun b' =>
      if (lossOf params b').isNaN || (lossOf params b').isInf then (params, true)
      else (applyStep params b', false))
    ⟨b.ls, b.lc, b.rs, b.rc,
     if b.labels.any fvalLtZero || b.labels.any fvalGtOne then b.labels.map clampLabel
     else b.labels⟩

/-! ### Checkpoint decisions (train.py lines 502-548) -/

/-- One epoch's `CheckpointDecision`: state is `(best_acc, best_loss)` with
`best_loss = none` standing for the initial `float("inf")`; the metric pair is
`(val_acc, val_loss)`.  Returns the new state and the pair of write decisions
(best-by-accuracy, best-by-loss), mirroring the two independent `if`s. -/
def ckptStep (s : ℚ × Option ℚ) (m : ℚ × ℚ) : (ℚ × Option ℚ) × (Bool × Bool) :=
  ((if s.1 < m.1 then m.1 else s.1,
    if (match s.2 with | none => true | some b => decide (m.2 < b)) then some m.2 else s.2),
   (decide (s.1 < m.1),
    match s.2 with | none => true | some b => decide (m.2 < b)))

/-- The checkpoint decisions of every epoch, threading the best-so-far state. -/
def ckptDecisions : (ℚ × Option ℚ) → List (ℚ × ℚ) → List (Bool × Bool)
  | _, [] => []
  | s, m :: rest => (ckptStep s m).2 :: ckptDecisions (ckptStep s m).1 rest

/-- The whole run: `best_acc = 0`, `best_loss = float("inf")` (lines 503-504). -/
def runCkpt (ms : List (ℚ × ℚ)) : List (Bool × Bool) :=
  ckptDecisions (0, none) ms

/-! ### The model `UnitAwareTransformer` (train.py lines 93-249)

The learned submodules are arbitrary functions: `value_ffn`, the per-layer
attention modules (taking query, key, value and the `key_padding_mask`, where
`true` marks a padded/excluded key slot), the per-layer FFNs and the scoring
head `fc`.  Dropout is training-time only; the claims about the forward pass
are stated for the deterministic eval-mode computation, so the module
functions are deterministic.  What `forward` itself computes — top-k
selection, embedding lookup, value conditioning, mask construction, the
residual wiring of the 4-step blocks, mask-gated scoring and the final
`R.sum - L.sum` — is translated from the source. -/

/-- A multi-head attention module as a function of
(query, key, value, key_padding_mask). -/
abbrev AttnFn := List Vec → List Vec → List Vec → List Bool → List Vec

/-- The parameters (weight-induced functions) of `UnitAwareTransformer`.
`unit_embed` is the embedding table (`num_units` rows); `num_heads` and the
dropout probabilities are internal to the opaque attention functions. -/
structure ModelParams where
  embed_dim : ℕ
  num_layers : ℕ
  unit_embed : List Vec
  value_ffn : Vec → Vec
  enemy_attentions : ℕ → AttnFn
  friend_attentions : ℕ → AttnFn
  enemy_ffn : ℕ → Vec → Vec
  friend_ffn : ℕ → Vec → Vec
  fc : Vec → ℚ

/-- Pair every entry of a count vector, starting at index `i`, with its index. -/
def idxPairsFrom (i : ℕ) : List ℚ → List (ℕ × ℚ)
  | [] => []
  | x :: xs => (i, x) :: idxPairsFrom (i + 1) xs

/-- Pair every entry of a count vector with its index (the unit-type id). -/
def idxPairs (xs : List ℚ) : List (ℕ × ℚ) :=
  idxPairsFrom 0 xs

/-- Insert into a list sorted by descending value, after all entries with a
greater-or-equal value: a stable descending sort step. -/
def insertDesc (q : ℕ × ℚ) : List (ℕ × ℚ) → List (ℕ × ℚ)
  | [] => [q]
  | x :: l => if x.2 < q.2 then q :: x :: l else x :: insertDesc q l

/-- Stable sort by descending value (ties keep ascending index order, the
tie-breaking the data contract specifies for `torch.topk`). -/
def sortDesc (xs : List (ℕ × ℚ)) : List (ℕ × ℚ) :=
  xs.foldl (fun acc q => insertDesc q acc) []

/-- `torch.topk(xs, k=3)` as (index, value) pairs in descending value order;
it raises when the dimension has fewer than 3 entries, modelled as `none`. -/
def topk3 (xs : List ℚ) : Option (List (ℕ × ℚ)) :=
  if 3 ≤ xs.length then some ((sortDesc (idxPairs xs)).take 3) else none

/-- `self.unit_embed(indices)`: look up the table row of every selected
index; an out-of-range index raises, modelled as `none`. -/
def lookupEmbeds (table : List Vec) : List (ℕ × ℚ) → Option (List Vec)
  | [] => some []
  | q :: tk =>
    match table[q.1]? with
    | none => none
    | some e =>
      match lookupEmbeds table tk with
      | none => none
      | some es => some (e :: es)

/-- Value conditioning (lines 168-182): first `embed_dim // 2` components
pass through unchanged, the rest are multiplied by the slot's count value. -/
def conditionEmbed (d : ℕ) (emb : Vec) (v : ℚ) : Vec :=
  emb.take (d / 2) ++ (emb.drop (d / 2)).map (fun x => x * v)

/-- Elementwise sum of two vectors (tensor `+` on matching shapes). -/
def vecAdd (a b : Vec) : Vec :=
  List.zipWith (fun x y => x + y) a b

/-- A residual sublayer `x + f(x)`. -/
def residual (f : Vec → Vec) (x : Vec) : Vec :=
  vecAdd x (f x)

/-- The validity mask `values > 0.1` (line 188-190). -/
def validityMask (values : List ℚ) : List Bool :=
  values.map (fun v => decide (1 / 10 < v))

/-- The conditioned, FFN-refined slot features of one side (lines 161-186):
condition each looked-up embedding by its count, then `x + value_ffn(x)`. -/
def buildFeats (p : ModelParams) (embs : List Vec) (tk : List (ℕ × ℚ)) : List Vec :=
  (List.zipWith (fun e iv => conditionEmbed p.embed_dim e iv.2) embs tk).map
    (residual p.value_ffn)

/-- Everything `forward` computes for one side before the attention stack:
top-3 selection, embedding lookup, value conditioning, value-FFN residual and
the validity mask (lines 156-190). -/
def sidePrep (p : ModelParams) (counts : List ℚ) : Option (List Vec × List Bool) :=
  match topk3 counts with
  | none => none
  | some tk =>
    match lookupEmbeds p.unit_embed tk with
    | none => none
    | some embs => some (buildFeats p embs tk, validityMask (tk.map (fun iv => iv.2)))

/-- Slotwise sum of two feature stacks (residual `+` on `(3, D)` tensors). -/
def addFeats (x y : List Vec) : List Vec :=
  List.zipWith vecAdd x y

/-- `~mask`, the `key_padding_mask` handed to the attention modules. -/
def maskComplement (m : List Bool) : List Bool :=
  m.map not

/-- One side's update in layer `i` (lines 192-239).  The left output of a
block is this function of (left, right, leftMask, rightMask); the right
output is the same function of (right, left, rightMask, leftMask) — both
sides share `enemy_attentions[i]`, `enemy_ffn[i]`, `friend_attentions[i]`
and `friend_ffn[i]`. -/
def blockSide (p : ModelParams) (i : ℕ) (a b : List Vec) (am bm : List Bool) : List Vec :=
  let a1 := addFeats a (p.enemy_attentions i a b b (maskComplement bm))
  let a2 := addFeats a1 (a1.map (p.enemy_ffn i))
  let a3 := addFeats a2 (p.friend_attentions i a2 a2 a2 (maskComplement am))
  addFeats a3 (a3.map (p.friend_ffn i))

/-- The `for i in range(self.num_layers)` loop from layer `i`, running `n`
more layers on the (left, right) feature pair. -/
def stackFrom (p : ModelParams) (lm rm : List Bool) (i : ℕ) :
    ℕ → List Vec × List Vec → List Vec × List Vec
  | 0, lr => lr
  | n + 1, lr =>
    stackFrom p lm rm (i + 1) n
      (blockSide p i lr.1 lr.2 lm rm, blockSide p i lr.2 lr.1 rm lm)

/-- The per-slot masked scores of one side: `self.fc(feat).squeeze(-1) * mask`
(lines 242-243; a false mask multiplies by 0). -/
def maskedScores (p : ModelParams) (feats : List Vec) (mask : List Bool) : List ℚ :=
  List.zipWith (fun x m => p.fc x * (if m then 1 else 0)) feats mask

/-- `L.sum(1)` / `R.sum(1)`: one side's total power. -/
def sideTotal (p : ModelParams) (feats : List Vec) (mask : List Bool) : ℚ :=
  (maskedScores p feats mask).sum

/-- Both sides prepared and run through the attention stack, paired with
their masks; `none` when either side's preparation raises. -/
def forwardParts (p : ModelParams) (lc rc : List ℚ) :
    Option ((List Vec × List Bool) × (List Vec × List Bool)) :=
  match sidePrep p lc, sidePrep p rc with
  | some lp, some rp =>
    some (((stackFrom p lp.2 rp.2 0 p.num_layers (lp.1, rp.1)).1, lp.2),
          ((stackFrom p lp.2 rp.2 0 p.num_layers (lp.1, rp.1)).2, rp.2))
  | _, _ => none

/-- `UnitAwareTransformer.forward(left_sign, left_count, right_sign,
right_count)` (lines 156-249).  The sign arguments are accepted but — exactly
as in the source — never used; the output logit is `R.sum(1) - L.sum(1)`. -/
def forward (p : ModelParams) (ls lc rs rc : List ℚ) : Option ℚ :=
  match forwardParts p lc rc with
  | none => none
  | some pr => some (sideTotal p pr.2.1 pr.2.2 - sideTotal p pr.1.1 pr.1.2)

/-- A tiny concrete parameter setting used to evaluate the theorems below on
concrete inputs: 3 unit types, zero-dimensional embeddings, zero layers,
identity-like submodules. -/
def pW0 : ModelParams :=
  ⟨0, 0, [[], [], []], fun v => v, fun _ q _ _ _ => q, fun _ q _ _ _ => q,
   fun _ v => v, fun _ v => v, fun v => v.sum⟩

/-! ## Theorems -/

/-! ### C1: invalid labels -/

/-- C1 (counterexample): a record whose label is `"X"` — outside
`{"L", "R"}` — does not make the load fail; `ArknightsDataset.__init__`
silently coerces it to the in-range label 0, refuting the claim that loading
raises an error instead of coercing. -/
theorem c1_counterexample : "X" ≠ "L" ∧ "X" ≠ "R" ∧ parseLabel "X" = 0 := by
  decide

/-- C1 (amended): every label value outside `{"L", "R"}` is silently coerced
to the label 0 (the `"L"` class) by the pandas `map` + `np.where` pipeline of
`ArknightsDataset.__init__`; no error is raised (`preprocess_data` merely
prints a count of invalid labels). -/
theorem c1_invalid_label_coerced (s : String) (h1 : s ≠ "L") (h2 : s ≠ "R") :
    parseLabel s = 0 := by
  simp [parseLabel, mapLabel, whereFix, h1, h2]

/-- C1 witness: the amended theorem evaluated on the concrete label `"QQ"`. -/
theorem c1_witness : parseLabel "QQ" = 0 :=
  c1_invalid_label_coerced "QQ" (by decide) (by decide)

/-! ### C2: gradient clipping -/

/-- Sums of squares are nonnegative. -/
theorem sumSq_nonneg (g : List ℚ) : 0 ≤ sumSq g := by
  induction g with
  | nil => simp [sumSq]
  | cons x g ih =>
    have hx : 0 ≤ x * x := mul_self_nonneg x
    simp only [sumSq, List.map_cons, List.sum_cons] at *
    linarith

/-- `sumSq` of a cons. -/
theorem sumSq_cons (x : ℚ) (g : List ℚ) : sumSq (x :: g) = x * x + sumSq g := by
  simp [sumSq]

/-- Scaling every gradient by `c` scales the sum of squares by `c ^ 2`. -/
theorem sumSq_map_mul (c : ℚ) (g : List ℚ) :
    sumSq (g.map (fun x => x * c)) = c ^ 2 * sumSq g := by
  induction g with
  | nil => simp [sumSq]
  | cons x g ih =>
    simp only [List.map_cons, sumSq_cons, ih]
    ring

/-- After `clip_grad_norm_` with `max_norm = 1.0`, applied to gradients whose
true total norm is `n`, the sum of squares (hence the norm) is at most 1. -/
theorem clip_sumSq_le (n : ℚ) (g : List ℚ) (hn : 0 ≤ n) (hsq : n ^ 2 = sumSq g) :
    sumSq (clipGradNorm 1 n g) ≤ 1 := by
  have heps : (0:ℚ) < clipEps := by norm_num [clipEps]
  have hpos : 0 < n + clipEps := by linarith
  unfold clipGradNorm
  by_cases hc : 1 / (n + clipEps) < 1
  · rw [if_pos hc, sumSq_map_mul, ← hsq]
    have h1 : (1 / (n + clipEps)) * n ≤ 1 := by
      rw [div_mul_eq_mul_div, one_mul, div_le_one hpos]
      linarith
    have h0 : 0 ≤ (1 / (n + clipEps)) * n := by positivity
    calc (1 / (n + clipEps)) ^ 2 * n ^ 2 = ((1 / (n + clipEps)) * n) ^ 2 := by ring
    _ ≤ 1 := by nlinarith
  · rw [if_neg hc]
    push_neg at hc
    have h2 : (1 / (n + clipEps)) * (n + clipEps) = 1 := one_div_mul_cancel (ne_of_gt hpos)
    have h3 : n + clipEps ≤ 1 := by nlinarith
    rw [← hsq]
    nlinarith

/-- C2 (counterexample): with mixed-precision scaling enabled and scale
factor `S = 1/2` (the `GradScaler` halves its scale on every overflowing
step, with no lower bound, so sub-1 scales are reachable) and a single true
gradient `8` — so the scaled gradients `[4]` have total norm `4` — the
gradients actually consumed by the optimizer step have squared norm `> 1`,
i.e. global norm `> 1.0`: the clip is applied to the still-scaled gradients,
refuting the claim for every updated step. -/
theorem c2_counterexample :
    (4:ℚ) ^ 2 = sumSq ([(8:ℚ)].map (fun x => x * (1 / 2))) ∧
    (0:ℚ) < 1 / 2 ∧
    1 < sumSq (scalerStepGrads (1 / 2) 4 [(8:ℚ)]) := by
  refine ⟨by norm_num [sumSq], by norm_num, ?_⟩
  have h : scalerStepGrads (1 / 2) 4 [(8:ℚ)] = [8000000 / 4000001] := by
    rw [scalerStepGrads, clipGradNorm, if_pos (by norm_num [clipEps])]
    norm_num [clipEps]
  rw [h]
  norm_num [sumSq]

/-- C2 (amended): gradient clipping is performed before the optimizer step in
both branches, and afterwards the global gradient norm is at most 1.0 — in
the unscaled branch unconditionally, and in the mixed-precision branch
whenever the scale factor satisfies `S ≥ 1` (the clip there is applied to the
scaled gradients, so the post-unscale norm is only bounded by `1/S`).
Norms are stated via sums of squares: `sumSq g ≤ 1` iff the norm is ≤ 1. -/
theorem c2_clipped_norm_bound (g : List ℚ) (n nS S : ℚ)
    (hn : 0 ≤ n) (hsq : n ^ 2 = sumSq g)
    (hS : 1 ≤ S) (hnS : 0 ≤ nS) (hsqS : nS ^ 2 = sumSq (g.map (fun x => x * S))) :
    sumSq (clipGradNorm 1 n g) ≤ 1 ∧ sumSq (scalerStepGrads S nS g) ≤ 1 := by
  constructor
  · exact clip_sumSq_le n g hn hsq
  · have hS0 : (0:ℚ) < S := lt_of_lt_of_le one_pos hS
    have h1 : sumSq (clipGradNorm 1 nS (g.map (fun x => x * S))) ≤ 1 :=
      clip_sumSq_le nS _ hnS hsqS
    have h2 : 0 ≤ sumSq (clipGradNorm 1 nS (g.map (fun x => x * S))) := sumSq_nonneg _
    unfold scalerStepGrads
    rw [sumSq_map_mul]
    have h3 : (1 / S) ^ 2 ≤ 1 := by
      rw [div_pow, one_pow, div_le_one (by positivity)]
      nlinarith
    nlinarith

/-- C2 witness: the amended theorem on the concrete gradients `[3, 4]`
(norm 5) with scale factor `S = 2` (scaled norm 10). -/
theorem c2_witness :
    sumSq (clipGradNorm 1 5 [(3:ℚ), 4]) ≤ 1 ∧ sumSq (scalerStepGrads 2 10 [(3:ℚ), 4]) ≤ 1 :=
  c2_clipped_norm_bound [3, 4] 5 10 2 (by norm_num) (by norm_num [sumSq])
    (by norm_num) (by norm_num) (by norm_num [sumSq])

/-! ### C3: NaN/Inf batches are skipped without touching the parameters -/

/-- C3: if any of the four input arrays of a batch contains a NaN or an Inf,
`train_one_epoch`'s loop body leaves the parameter state unchanged and marks
the batch as skipped — the screening happens before the forward pass, the
backward pass and the optimizer step, for every possible loss function and
parameter-update function. -/
theorem c3_nan_inf_skip_preserves_params {α : Type} (lossOf : α → TrainBatch → FVal)
    (applyStep : α → TrainBatch → α) (params : α) (b : TrainBatch)
    (h : (b.ls.any FVal.isNaN || b.lc.any FVal.isNaN || b.rs.any FVal.isNaN || b.rc.any FVal.isNaN
          || b.ls.any FVal.isInf || b.lc.any FVal.isInf || b.rs.any FVal.isInf || b.rc.any FVal.isInf)
          = true) :
    trainBatchStep lossOf applyStep params b = (params, true) := by
  by_cases h1 : (b.ls.any FVal.isNaN || b.lc.any FVal.isNaN
      || b.rs.any FVal.isNaN || b.rc.any FVal.isNaN) = true
  · simp [trainBatchStep, h1]
  · simp only [Bool.not_eq_true] at h1
    simp only [h1, Bool.false_or] at h
    simp [trainBatchStep, h1, h]

/-- C3 witness: a concrete batch whose left-sign array contains NaN, with a
concrete rational parameter state and a parameter update that would change
the state if it ran. -/
theorem c3_witness :
    trainBatchStep (fun (_ : ℚ) _ => FVal.fin 0) (fun p _ => p + 1) (0:ℚ)
      ⟨[FVal.nan], [FVal.fin 1], [FVal.fin 1], [FVal.fin 1], [FVal.fin 0]⟩ = ((0:ℚ), true) :=
  c3_nan_inf_skip_preserves_params _ _ _ _ (by decide)

/-! ### C7: parsed counts are within bounds -/

/-- C7 (counterexample): with a configured maximum clip value of `-1`,
`np.clip(|x|, 0, -1)` returns `-1` for every entry, so the parsed left count
array of the feature row `[2, 5]` contains a negative entry, refuting the
unconditional claim `count ≥ 0`. -/
theorem c7_counterexample :
    ¬ ∀ x ∈ (parseRow [(2:ℚ), 5] (some (-1))).left_counts, 0 ≤ x := by
  decide

/-- C7 (amended): for every parsed sample, when no maximum is configured or
the configured maximum is nonnegative, every entry of the left and right
count arrays is ≥ 0, and when a maximum `m` is configured every entry
is ≤ `m`. -/
theorem c7_count_bounds (fs : List ℚ) (mv : Option ℚ) (hmv : ∀ m, mv = some m → 0 ≤ m) :
    (∀ x ∈ (parseRow fs mv).left_counts, 0 ≤ x ∧ ∀ m, mv = some m → x ≤ m) ∧
    (∀ x ∈ (parseRow fs mv).right_counts, 0 ≤ x ∧ ∀ m, mv = some m → x ≤ m) := by
  have key : ∀ raw : List ℚ, ∀ x ∈ toCounts raw mv, 0 ≤ x ∧ ∀ m, mv = some m → x ≤ m := by
    intro raw x hx
    cases mv with
    | none =>
      simp only [toCounts, List.mem_map] at hx
      obtain ⟨a, _, rfl⟩ := hx
      refine ⟨abs_nonneg a, ?_⟩
      intro m hm
      cases hm
    | some m0 =>
      have hm0 : 0 ≤ m0 := hmv m0 rfl
      simp only [toCounts, List.map_map, List.mem_map, Function.comp] at hx
      obtain ⟨a, _, rfl⟩ := hx
      constructor
      · exact le_min (le_max_right _ _) hm0
      · intro m hm
        obtain rfl : m0 = m := Option.some.inj hm
        exact min_le_right _ _
  exact ⟨fun x hx => key _ x hx, fun x hx => key _ x hx⟩

/-- C7 witness: the amended theorem on the concrete feature row `[2, 5]` with
the configured maximum `100` (the value `main` uses). -/
theorem c7_witness :
    (∀ x ∈ (parseRow [(2:ℚ), 5] (some 100)).left_counts,
        0 ≤ x ∧ ∀ m, (some (100:ℚ)) = some m → x ≤ m) ∧
    (∀ x ∈ (parseRow [(2:ℚ), 5] (some 100)).right_counts,
        0 ≤ x ∧ ∀ m, (some (100:ℚ)) = some m → x ≤ m) :=
  c7_count_bounds [2, 5] (some 100)
    (by intro m hm; obtain rfl := Option.some.inj hm; norm_num)

/-! ### C8: checkpoint decisions -/

/-- The running-best update of the accuracy comparison is a `max`. -/
theorem if_lt_max (x y : ℚ) : (if x < y then y else x) = max x y := by
  rcases lt_or_le x y with h | h
  · rw [if_pos h, max_eq_right h.le]
  · rw [if_neg (not_lt.mpr h), max_eq_left h]

/-- Characterisation of the checkpoint decisions from an arbitrary starting
state `(ba, bl)`: the accuracy checkpoint at epoch `i` is written iff the
epoch's accuracy strictly exceeds the `max`-fold of `ba` and all previous
accuracies, and the loss checkpoint iff the loss is strictly below every
previous loss and below `bl` when `bl` is set. -/
theorem ckptDecisions_getElem? :
    ∀ (ms : List (ℚ × ℚ)) (ba : ℚ) (bl : Option ℚ) (i : ℕ) (a l : ℚ),
      ms[i]? = some (a, l) →
      (ckptDecisions (ba, bl) ms)[i]? =
        some (decide (((ms.take i).map Prod.fst).foldl max ba < a),
              decide ((∀ q ∈ ms.take i, l < q.2) ∧ ∀ b, bl = some b → l < b)) := by
  intro ms
  induction ms with
  | nil => intro ba bl i a l hm; simp at hm
  | cons m rest ih =>
    intro ba bl i a l hm
    cases i with
    | zero =>
      obtain rfl : m = (a, l) := by simpa using hm
      cases bl with
      | none => simp [ckptDecisions, ckptStep]
      | some b =>
        simp only [ckptDecisions, ckptStep, List.getElem?_cons_zero, List.take_zero,
          List.map_nil, List.foldl_nil, Option.some.injEq, Prod.mk.injEq]
        exact ⟨trivial, decide_eq_decide.mpr (by simp)⟩
    | succ i =>
      have hm' : rest[i]? = some (a, l) := by simpa using hm
      simp only [ckptDecisions, ckptStep, List.getElem?_cons_succ]
      rw [ih _ _ i a l hm']
      simp only [List.take_succ_cons, List.map_cons, List.foldl_cons, Option.some.injEq,
        Prod.mk.injEq]
      constructor
      · rw [if_lt_max]
      · cases bl with
        | none =>
          rw [if_pos rfl]
          refine decide_eq_decide.mpr ?_
          simp only [List.forall_mem_cons]
          constructor
          · rintro ⟨hP, hm2⟩
            refine ⟨⟨hm2 m.2 rfl, hP⟩, ?_⟩
            rintro b hb'
            cases hb'
          · rintro ⟨⟨hlm, hP⟩, _⟩
            refine ⟨hP, ?_⟩
            rintro b hb'
            obtain rfl := Option.some.inj hb'
            exact hlm
        | some b0 =>
          by_cases hb : m.2 < b0
          · rw [if_pos (by simp [hb])]
            refine decide_eq_decide.mpr ?_
            simp only [List.forall_mem_cons]
            constructor
            · rintro ⟨hP, hm2⟩
              have hlm : l < m.2 := hm2 m.2 rfl
              refine ⟨⟨hlm, hP⟩, ?_⟩
              rintro b hb'
              obtain rfl := Option.some.inj hb'
              exact hlm.trans hb
            · rintro ⟨⟨hlm, hP⟩, _⟩
              refine ⟨hP, ?_⟩
              rintro b hb'
              obtain rfl := Option.some.inj hb'
              exact hlm
          · rw [if_neg (by simp [hb])]
            refine decide_eq_decide.mpr ?_
            simp only [List.forall_mem_cons]
            constructor
            · rintro ⟨hP, hb0⟩
              have hlb : l < b0 := hb0 b0 rfl
              refine ⟨⟨hlb.trans_le (not_lt.mp hb), hP⟩, ?_⟩
              rintro b hb'
              obtain rfl := Option.some.inj hb'
              exact hlb
            · rintro ⟨⟨_, hP⟩, hlb⟩
              refine ⟨hP, ?_⟩
              rintro b hb'
              obtain rfl := Option.some.inj hb'
              exact hlb b0 rfl

/-- C8 (amended): at the end of each epoch, the best-by-accuracy checkpoint
is written iff the epoch's validation accuracy strictly exceeds the maximum
of 0 (the tracker's initial `best_acc`) and all previous epochs' accuracies,
and — independently and non-exclusively — the best-by-loss checkpoint is
written iff the epoch's validation loss is strictly below every previous
epoch's loss (the initial best loss being `float("inf")`). -/
theorem c8_checkpoint_decisions (ms : List (ℚ × ℚ)) (i : ℕ) (a l : ℚ)
    (hm : ms[i]? = some (a, l)) :
    (runCkpt ms)[i]? =
      some (decide (((ms.take i).map Prod.fst).foldl max 0 < a),
            decide (∀ q ∈ ms.take i, l < q.2)) := by
  rw [runCkpt, ckptDecisions_getElem? ms 0 none i a l hm]
  simp only [Option.some.injEq, Prod.mk.injEq]
  exact ⟨trivial, decide_eq_decide.mpr (by simp)⟩

/-- C8 (counterexample): a first epoch with validation accuracy exactly 0
(and loss 5).  Its accuracy vacuously strictly exceeds the best accuracy of
all (zero) previous epochs and its loss is vacuously below every previous
loss, so the claim's iff demands the decision pair `(true, true)` — but the
code compares against the initial `best_acc = 0`, writes no accuracy
checkpoint, and produces `(false, true)`. -/
theorem c8_counterexample :
    (runCkpt [((0:ℚ), (5:ℚ))])[0]? ≠
      some (decide (∀ q ∈ ([((0:ℚ), (5:ℚ))].take 0), q.1 < 0),
            decide (∀ q ∈ ([((0:ℚ), (5:ℚ))].take 0), (5:ℚ) < q.2)) := by
  decide

/-- C8 witness: the amended theorem on a concrete two-epoch run with
accuracies 50 then 60 and losses 2 then 1, evaluated at the second epoch. -/
theorem c8_witness :
    (runCkpt [((50:ℚ), (2:ℚ)), ((60:ℚ), (1:ℚ))])[1]? =
      some (decide ((([((50:ℚ), (2:ℚ)), ((60:ℚ), (1:ℚ))].take 1).map Prod.fst).foldl max 0 < 60),
            decide (∀ q ∈ [((50:ℚ), (2:ℚ)), ((60:ℚ), (1:ℚ))].take 1, (1:ℚ) < q.2)) :=
  c8_checkpoint_decisions [((50:ℚ), (2:ℚ)), ((60:ℚ), (1:ℚ))] 1 60 1 (by decide)

/-! ### C4 / C9: forward-pass symmetry and sign noninterference -/

/-- Swapping the (features, masks) pair fed to the attention stack swaps the
outputs: both sides of every block use the same shared layer modules. -/
theorem stackFrom_swap (p : ModelParams) (am bm : List Bool) :
    ∀ (n i : ℕ) (af bf : List Vec),
      stackFrom p bm am i n (bf, af)
        = ((stackFrom p am bm i n (af, bf)).2, (stackFrom p am bm i n (af, bf)).1) := by
  intro n
  induction n with
  | zero => intro i af bf; rfl
  | succ n ih =>
    intro i af bf
    simp only [stackFrom]
    exact ih (i + 1) (blockSide p i af bf am bm) (blockSide p i bf af bm am)

/-- C4: for every parameter setting and all inputs, in the deterministic
(eval-mode) forward computation, swapping the two sides' inputs negates the
output logit: `model(ls, lc, rs, rc) = -model(rs, rc, ls, lc)` — exactly, in
exact arithmetic, because the embedding, value FFN, per-layer attention/FFN
modules and the scoring head are shared between the two sides.  (When either
side's preparation fails, both orientations fail.) -/
theorem c4_swap_antisymmetry (p : ModelParams) (ls lc rs rc : List ℚ) :
    forward p ls lc rs rc = (forward p rs rc ls lc).map (fun x => -x) := by
  unfold forward forwardParts
  cases hsl : sidePrep p lc with
  | none =>
    cases hsr : sidePrep p rc with
    | none => simp
    | some b => simp
  | some a =>
    cases hsr : sidePrep p rc with
    | none => simp
    | some b =>
      dsimp only
      rw [stackFrom_swap p a.2 b.2 p.num_layers 0 a.1 b.1]
      simp [neg_sub]

/-- C9: the forward pass never reads the sign arrays — for every parameter
setting and count inputs, any two choices of the left/right sign arrays give
the same logit.  The proof is definitional because the embedded `forward`,
like the source, never mentions its sign arguments. -/
theorem c9_sign_noninterference (p : ModelParams) (ls ls' rs rs' lc rc : List ℚ) :
    forward p ls lc rs rc = forward p ls' lc rs' rc := rfl

/-! ### C6: value conditioning splits the embedding at D/2 -/

/-- C6: in the value-conditioning step of the forward pass, component `j` of
a selected unit's conditioned embedding equals the looked-up embedding's
component unchanged when `j < D/2`, and the component multiplied by the
unit's (clipped) count `v` otherwise. -/
theorem c6_value_conditioning (d : ℕ) (emb : Vec) (v : ℚ) (j : ℕ) (hlen : emb.length = d) :
    (conditionEmbed d emb v)[j]? =
      if j < d / 2 then emb[j]? else emb[j]?.map (fun x => x * v) := by
  have hd2 : d / 2 ≤ d := Nat.div_le_self d 2
  have htl : (emb.take (d / 2)).length = d / 2 := by
    rw [List.length_take, hlen]
    exact min_eq_left hd2
  unfold conditionEmbed
  by_cases hj : j < d / 2
  · rw [if_pos hj, List.getElem?_append_left (by rw [htl]; exact hj),
      List.getElem?_take_of_lt hj]
  · have hidx : d / 2 + (j - d / 2) = j := by omega
    rw [if_neg hj, List.getElem?_append_right (by rw [htl]; omega), htl,
      List.getElem?_map, List.getElem?_drop, hidx]

/-- C6 witness: the theorem on a concrete embedding `[3, 4]` with `D = 2`,
count 5, at the second component. -/
theorem c6_witness :
    (conditionEmbed 2 [(3:ℚ), 4] 5)[1]? =
      if 1 < 2 / 2 then [(3:ℚ), 4][1]? else [(3:ℚ), 4][1]?.map (fun x => x * 5) :=
  c6_value_conditioning 2 [(3:ℚ), 4] 5 1 rfl

/-! ### C5: masks, zero contributions, and the final logit -/

/-- A slot whose mask entry is `false` contributes exactly `some 0` to the
per-slot masked scores, whatever its feature vector holds. -/
theorem maskedScores_getElem?_false (p : ModelParams) :
    ∀ (f : List Vec) (mm : List Bool) (j : ℕ), j < f.length → mm[j]? = some false →
      (maskedScores p f mm)[j]? = some 0 := by
  intro f
  induction f with
  | nil => intro mm j hj _; simp at hj
  | cons x f ih =>
    intro mm j hj hmm
    cases mm with
    | nil => simp at hmm
    | cons m mm =>
      cases j with
      | zero =>
        obtain rfl : m = false := by simpa using hmm
        simp [maskedScores]
      | succ j =>
        have hj' : j < f.length := by simpa using hj
        have hmm' : mm[j]? = some false := by simpa using hmm
        simpa [maskedScores] using ih mm j hj' hmm'

/-- C5: (1) the validity mask a side's preparation produces is exactly
`topKValue > 0.1` slotwise; (2) a slot with a false mask contributes exactly
0 to the side's total power regardless of its feature content; (3) the
returned logit is `R_total - L_total` of the masked per-side totals. -/
theorem c5_mask_and_scoring (p : ModelParams) (ls lc rs rc c : List ℚ)
    (tk : List (ℕ × ℚ)) (fs : List Vec) (m : List Bool)
    (f : List Vec) (mm : List Bool) (j : ℕ)
    (lf rf : List Vec) (lm rm : List Bool)
    (htk : topk3 c = some tk)
    (hprep : sidePrep p c = some (fs, m))
    (hj : j < f.length)
    (hmm : mm[j]? = some false)
    (hparts : forwardParts p lc rc = some ((lf, lm), (rf, rm))) :
    m = validityMask (tk.map (fun iv => iv.2))
    ∧ (maskedScores p f mm)[j]? = some 0
    ∧ forward p ls lc rs rc = some (sideTotal p rf rm - sideTotal p lf lm) := by
  refine ⟨?_, maskedScores_getElem?_false p f mm j hj hmm, ?_⟩
  · unfold sidePrep at hprep
    simp only [htk] at hprep
    cases hemb : lookupEmbeds p.unit_embed tk with
    | none =>
      simp only [hemb] at hprep
      exact Option.noConfusion hprep
    | some es =>
      simp only [hemb, Option.some.injEq, Prod.mk.injEq] at hprep
      exact hprep.2.symm
  · unfold forward
    simp [hparts]

/-- C5 witness: the theorem on the tiny concrete model `pW0` with count
vector `[5, 0, 0]` on both sides (mask `[true, false, false]`), checking the
false-masked slot 1. -/
theorem c5_witness :
    ([true, false, false] : List Bool)
        = validityMask (([(0, (5:ℚ)), (1, 0), (2, 0)]).map (fun iv => iv.2))
    ∧ (maskedScores pW0 [[], [], []] [true, false, false])[1]? = some 0
    ∧ forward pW0 [0, 0, 0] [(5:ℚ), 0, 0] [0, 0, 0] [5, 0, 0]
        = some (sideTotal pW0 [[], [], []] [true, false, false]
            - sideTotal pW0 [[], [], []] [true, false, false]) :=
  c5_mask_and_scoring pW0 [0, 0, 0] [(5:ℚ), 0, 0] [0, 0, 0] [5, 0, 0] [5, 0, 0]
    [(0, 5), (1, 0), (2, 0)] [[], [], []] [true, false, false]
    [[], [], []] [true, false, false] 1
    [[], [], []] [[], [], []] [true, false, false] [true, false, false]
    (by decide)
    (by norm_num [sidePrep, topk3, sortDesc, idxPairs, idxPairsFrom, insertDesc, lookupEmbeds,
      buildFeats, conditionEmbed, residual, vecAdd, validityMask, pW0])
    (by norm_num)
    (by decide)
    (by norm_num [forwardParts, sidePrep, topk3, sortDesc, idxPairs, idxPairsFrom, insertDesc,
      lookupEmbeds, buildFeats, conditionEmbed, residual, vecAdd, validityMask, stackFrom, pW0])

/-! ### C10: the forward pass needs at least 3 unit types per side -/

/-- Indices produced by `idxPairsFrom i` are below `i` plus the list length. -/
theorem mem_idxPairsFrom : ∀ (xs : List ℚ) (i : ℕ) (q : ℕ × ℚ),
    q ∈ idxPairsFrom i xs → q.1 < i + xs.length := by
  intro xs
  induction xs with
  | nil => intro i q hq; simp [idxPairsFrom] at hq
  | cons x xs ih =>
    intro i q hq
    simp only [idxPairsFrom, List.mem_cons] at hq
    rcases hq with rfl | hq
    · simp only [List.length_cons]
      omega
    · have := ih (i + 1) q hq
      simp only [List.length_cons]
      omega

/-- Insertion produces no new elements. -/
theorem mem_insertDesc : ∀ (l : List (ℕ × ℚ)) (q r : ℕ × ℚ),
    r ∈ insertDesc q l → r = q ∨ r ∈ l := by
  intro l
  induction l with
  | nil =>
    intro q r hr
    simp only [insertDesc, List.mem_singleton] at hr
    exact Or.inl hr
  | cons x l ih =>
    intro q r hr
    simp only [insertDesc] at hr
    by_cases hx : x.2 < q.2
    · rw [if_pos hx] at hr
      rcases List.mem_cons.mp hr with h | h
      · exact Or.inl h
      · exact Or.inr h
    · rw [if_neg hx] at hr
      rcases List.mem_cons.mp hr with h | h
      · exact Or.inr (List.mem_cons.mpr (Or.inl h))
      · rcases ih q r h with h' | h'
        · exact Or.inl h'
        · exact Or.inr (List.mem_cons.mpr (Or.inr h'))

/-- Elements of the insertion-sort fold come from the seed or the input. -/
theorem mem_foldl_insertDesc : ∀ (l acc : List (ℕ × ℚ)) (q : ℕ × ℚ),
    q ∈ l.foldl (fun acc p => insertDesc p acc) acc → q ∈ acc ∨ q ∈ l := by
  intro l
  induction l with
  | nil => intro acc q hq; exact Or.inl hq
  | cons x l ih =>
    intro acc q hq
    simp only [List.foldl_cons] at hq
    rcases ih _ q hq with h | h
    · rcases mem_insertDesc acc x q h with h' | h'
      · exact Or.inr (List.mem_cons.mpr (Or.inl h'))
      · exact Or.inl h'
    · exact Or.inr (List.mem_cons.mpr (Or.inr h))

/-- The stable descending sort permutes no elements in. -/
theorem mem_sortDesc {xs : List (ℕ × ℚ)} {q : ℕ × ℚ} (h : q ∈ sortDesc xs) : q ∈ xs := by
  rcases mem_foldl_insertDesc xs [] q h with h' | h'
  · exact absurd h' (List.not_mem_nil q)
  · exact h'

/-- Every index selected by `topk3 xs` indexes into `xs`. -/
theorem topk3_mem_lt {xs : List ℚ} {tk : List (ℕ × ℚ)} (h : topk3 xs = some tk) :
    ∀ q ∈ tk, q.1 < xs.length := by
  intro q hq
  unfold topk3 at h
  by_cases h3 : 3 ≤ xs.length
  · rw [if_pos h3] at h
    obtain rfl := Option.some.inj h
    have h1 : q ∈ sortDesc (idxPairs xs) := List.take_subset _ _ hq
    have h2 : q ∈ idxPairsFrom 0 xs := mem_sortDesc h1
    have h4 := mem_idxPairsFrom xs 0 q h2
    omega
  · rw [if_neg h3] at h
    cases h

/-- `topk3` succeeds exactly on vectors with at least 3 entries. -/
theorem topk3_isSome_iff (xs : List ℚ) : (topk3 xs).isSome = true ↔ 3 ≤ xs.length := by
  unfold topk3
  by_cases h : 3 ≤ xs.length
  · simp [h]
  · simp [h]

/-- The embedding lookup succeeds when every selected index is in range. -/
theorem lookupEmbeds_isSome {table : List Vec} :
    ∀ {tk : List (ℕ × ℚ)}, (∀ q ∈ tk, q.1 < table.length) →
      ∃ es, lookupEmbeds table tk = some es := by
  intro tk
  induction tk with
  | nil => intro _; exact ⟨[], rfl⟩
  | cons q tk ih =>
    intro h
    have hq : q.1 < table.length := h q (List.mem_cons.mpr (Or.inl rfl))
    have hne : table[q.1]? ≠ none := by
      intro hc
      rw [List.getElem?_eq_none_iff] at hc
      omega
    cases hget : table[q.1]? with
    | none => exact absurd hget hne
    | some e =>
      obtain ⟨es, hes⟩ := ih (fun r hr => h r (List.mem_cons.mpr (Or.inr hr)))
      exact ⟨e :: es, by simp [lookupEmbeds, hget, hes]⟩

/-- One side's preparation succeeds iff its count vector has ≥ 3 entries,
when the count vector's length matches the embedding-table size (as in
`main`, where `num_units = M`). -/
theorem sidePrep_isSome_iff (p : ModelParams) (c : List ℚ)
    (h : c.length = p.unit_embed.length) :
    (sidePrep p c).isSome = true ↔ 3 ≤ c.length := by
  constructor
  · intro hs
    rw [← topk3_isSome_iff]
    unfold sidePrep at hs
    cases htk : topk3 c with
    | none =>
      simp only [htk, Option.isSome_none] at hs
      exact Bool.noConfusion hs
    | some tk => simp [htk]
  · intro h3
    have h1 : (topk3 c).isSome = true := (topk3_isSome_iff c).mpr h3
    obtain ⟨tk, htk⟩ := Option.isSome_iff_exists.mp h1
    have hlt : ∀ q ∈ tk, q.1 < p.unit_embed.length := by
      intro q hq
      rw [← h]
      exact topk3_mem_lt htk q hq
    obtain ⟨es, hes⟩ := lookupEmbeds_isSome hlt
    unfold sidePrep
    simp [htk, hes]

/-- C10: with per-side count vectors of length `M` matching the embedding
table (the configuration `main` builds), the forward pass succeeds iff
`M ≥ 3` — `torch.topk(·, k=3, dim=1)` raises on fewer than 3 unit types, a
precondition the public interface does not state. -/
theorem c10_topk_arity (p : ModelParams) (ls lc rs rc : List ℚ) (M : ℕ)
    (h1 : lc.length = M) (h2 : rc.length = M) (h3 : p.unit_embed.length = M) :
    (forward p ls lc rs rc).isSome = true ↔ 3 ≤ M := by
  have hl := sidePrep_isSome_iff p lc (by rw [h1, h3])
  have hr := sidePrep_isSome_iff p rc (by rw [h2, h3])
  rw [h1] at hl
  rw [h2] at hr
  unfold forward forwardParts
  cases hsl : sidePrep p lc with
  | none =>
    rw [hsl] at hl
    simp only [Option.isSome_none, Bool.false_eq_true, false_iff] at hl
    cases hsr : sidePrep p rc <;> simp [hl]
  | some a =>
    rw [hsl] at hl
    simp only [Option.isSome_some] at hl
    cases hsr : sidePrep p rc with
    | none =>
      rw [hsr] at hr
      simp only [Option.isSome_none, Bool.false_eq_true, false_iff] at hr
      exact absurd (hl.mp trivial) hr
    | some b => simp [hl.mp trivial]

/-- C10 witness: the theorem on the tiny concrete model `pW0` (3 unit types)
with length-3 count vectors: the forward pass succeeds. -/
theorem c10_witness :
    (forward pW0 [0, 0, 0] [(5:ℚ), 0, 0] [0, 0, 0] [5, 0, 0]).isSome = true :=
  (c10_topk_arity pW0 [0, 0, 0] [(5:ℚ), 0, 0] [0, 0, 0] [5, 0, 0] 3 rfl rfl rfl).mpr
    (by norm_num)

end CannotMax
